import Mathlib

set_option maxHeartbeats 1000000

/-!
Shallow embedding of the votechain core (ballot codec, chain store, sync
initiator, delegation resolver and tally) together with proofs about the
embedded operations.

Modelling conventions:
* `ed25519_dalek::VerifyingKey` values are opaque identifiers, modelled as `Nat`.
* Paillier ciphertexts are modelled at the plaintext level (`Nat`), with the
  homomorphic scalar product and addition modelled as multiplication and
  addition; range proofs are opaque tokens.  No claim settled here depends on
  the cryptographic internals, only on which ballots flow into which operation.
* `blake3` digests are modelled as a perfect (injective) content hash: the
  digest of a block is a constructor applied to exactly the fields the source
  feeds to the hasher (`timestamp`, `previous_hash`, and the serialized ballots
  when the data is `Ballots`; signature and nonce are excluded, as in the
  source).
* The `heed` key-value store is an association list keyed by `Nat`.  Writes in
  a `heed` write transaction become visible only at `commit`; failures of
  individual KV operations are modelled by a fault schedule (`Faults`) consumed
  one tick per KV operation, so that the transactional rollback behaviour of
  `try_update_longest` is represented faithfully: on any mid-transaction fault
  the pending store is discarded while in-memory mutations (the ballot pool
  pushes) survive.
* Timestamps (`OffsetDateTime`, `u128` milliseconds) are `Nat`.
* Rust panics (`unwrap` on `Err`/`None`, out-of-bounds indexing) are modelled
  by `Option`-valued results (`none`) or an explicit `panicked` outcome.
-/

namespace Votechain

/-- Ballot from `src/lib/src/lib.rs`.  `vote_for`/`vote_against` stand for the
Paillier ciphertexts (plaintext-level model), `proof_for`/`proof_against` for
the `RangeProofNi` values (opaque tokens). -/
structure Ballot where
  timestamp : Nat
  issue_id : String
  vote_for : Nat
  vote_against : Nat
  proof_for : Nat
  proof_against : Nat
  deriving DecidableEq

/-- `Ballot::validate_proofs` from `src/lib/src/lib.rs` lines 60-66.  In the
source both `verify_self` calls are commented out and the function body is
`return true` unconditionally; the issue id and the proofs are never
inspected. -/
def Ballot.validate_proofs (_b : Ballot) : Bool :=
  true

/-- `Ballot::weight`: homomorphic scalar product of both ciphertexts by the
plaintext `w`, modelled at the plaintext level. -/
def Ballot.weight (b : Ballot) (w : Nat) : Ballot :=
  { b with vote_for := b.vote_for * w, vote_against := b.vote_against * w }

/-- `Ballot::sum`: homomorphic addition of this ballot onto both accumulators,
modelled at the plaintext level. -/
def Ballot.sum (b : Ballot) (agg_for agg_against : Nat) : Nat × Nat :=
  (agg_for + b.vote_for, agg_against + b.vote_against)

/-- `Signed<T>` from `src/lib/src/lib.rs`: detached signature, embedded signer
key, payload. -/
structure Signed (T : Type) where
  signature : Nat
  signer : Nat
  data : T
  deriving DecidableEq

/-- A 32-byte `blake3::Hash`, modelled as a perfect content hash: `raw` embeds
literal bytes (the all-zero genesis `previous_hash`), `digest` is the digest of
exactly the content `Block::hash` feeds to the hasher. -/
inductive BHash where
  | raw (bytes : List Nat)
  | digest (timestamp : Nat) (previous_hash : BHash) (ballots : List (Signed Ballot))
  deriving DecidableEq

/-- `BlockData` from `src/node/src/votechain/block.rs`. -/
inductive BlockData where
  | genesis (note : String)
  | ballots (ballots : List (Signed Ballot))
  | seal (note : String)
  deriving DecidableEq

/-- `Block` from `src/node/src/votechain/block.rs`. -/
structure Block where
  timestamp : Nat
  previous_hash : BHash
  signatory : Nat
  signature : Nat
  data : BlockData
  nonce : Nat
  deriving DecidableEq

/-- `Block::hash`: digest of `timestamp`, `previous_hash`, and (only for
`Ballots` data) the serialized ballots.  Signature, signatory, nonce and the
genesis/seal strings are not hashed, exactly as in the source. -/
def Block.hash (b : Block) : BHash :=
  BHash.digest b.timestamp b.previous_hash
    (match b.data with
     | BlockData.ballots bs => bs
     | _ => [])

/-- `Block::get_ballots`. -/
def Block.get_ballots (b : Block) : Option (List (Signed Ballot)) :=
  match b.data with
  | BlockData.ballots bs => some bs
  | _ => none

/-- `Block::is_valid`: the only check performed by the source is
`self.previous_hash == prev.hash()`. -/
def Block.is_valid (b prev : Block) : Bool :=
  decide (b.previous_hash = prev.hash)

/-- `is_valid_chain` from `src/node/src/votechain/chain.rs`: every adjacent
pair must link (`pair[0].hash() == pair[1].previous_hash`); empty and
singleton lists are valid. -/
def is_valid_chain : List Block → Bool
  | [] => true
  | [_] => true
  | a :: b :: rest => (decide (b.previous_hash = a.hash)) && is_valid_chain (b :: rest)

/-- Association-list lookup (model of `heed::Database::get` and `HashMap::get`). -/
def alookup {κ α : Type} [DecidableEq κ] : List (κ × α) → κ → Option α
  | [], _ => none
  | (k, v) :: rest, k' => if k = k' then some v else alookup rest k'

/-- Association-list insert/update (model of `heed::Database::put` and
`HashMap::insert`): replaces the first binding of the key in place, otherwise
appends. -/
def aput {κ α : Type} [DecidableEq κ] : List (κ × α) → κ → α → List (κ × α)
  | [], k, v => [(k, v)]
  | (k0, v0) :: rest, k, v =>
    if k0 = k then (k, v) :: rest else (k0, v0) :: aput rest k v

/-- Association-list delete (model of `heed::Database::delete`): removes the
first binding of the key. -/
def aremove {κ α : Type} [DecidableEq κ] : List (κ × α) → κ → List (κ × α)
  | [], _ => []
  | (k0, v0) :: rest, k =>
    if k0 = k then rest else (k0, v0) :: aremove rest k

/-- `Error` from `src/node/src/votechain/errors.rs`. -/
inductive Error where
  | heed
  | io
  | blockNotFound (index : Nat)
  | invalidNewBlock
  deriving DecidableEq

/-- The `Blockchain` state from `src/node/src/votechain/chain.rs`: persistent
`index -> Block` store, in-memory `hash -> index` reverse map, height metadata
and the ballot pool.  (The config path and signing key play no role in the
claims and are omitted.) -/
structure Blockchain where
  chain_db : List (Nat × Block)
  hash_indexes : List (BHash × Nat)
  height : Nat
  ballot_pool : List (Signed Ballot)
  deriving DecidableEq

/-- `Blockchain::get_block`. -/
def Blockchain.get_block (chain : Blockchain) (index : Nat) : Except Error Block :=
  match alookup chain.chain_db index with
  | some b => Except.ok b
  | none => Except.error (Error.blockNotFound index)

/-- `Blockchain::get_hash_at`. -/
def Blockchain.get_hash_at (chain : Blockchain) (index : Nat) : Except Error BHash :=
  match chain.get_block index with
  | Except.ok b => Except.ok b.hash
  | Except.error e => Except.error e

/-- `Blockchain::append` (lines 142-158): fetch the head, require
`block.is_valid(head)`, persist at `height+1`, advance `height`.  The
in-memory `hash_indexes` map is not touched by the source. -/
def Blockchain.append (chain : Blockchain) (block : Block) : Except Error Blockchain :=
  match chain.get_block chain.height with
  | Except.error e => Except.error e
  | Except.ok head =>
    if block.is_valid head then
      Except.ok { chain with
        chain_db := aput chain.chain_db (chain.height + 1) block,
        height := chain.height + 1 }
    else
      Except.error Error.invalidNewBlock

/-- A fault schedule for the key-value store: `F n = true` means the `n`-th KV
operation performed during a call raises a `heed` error. -/
def Faults : Type := Nat → Bool

/-- The strip phase of `try_update_longest`: for each index in the given range,
read the block through the write transaction (one KV tick), delete it (one KV
tick), and push its ballots onto the pool.  On a fault the accumulated pool is
returned (the pool is an in-memory `Vec` whose pushes are not transactional);
the pending store is discarded by the caller. -/
def strip_loop (F : Faults) :
    List Nat → Nat → List (Nat × Block) → List (Signed Ballot) →
    Except (List (Signed Ballot)) (Nat × List (Nat × Block) × List (Signed Ballot))
  | [], n, txn, pool => Except.ok (n, txn, pool)
  | i :: rest, n, txn, pool =>
    if F n then Except.error pool
    else
      match alookup txn i with
      | none => strip_loop F rest (n + 1) txn pool
      | some b =>
        if F (n + 1) then Except.error pool
        else
          strip_loop F rest (n + 2) (aremove txn i)
            (pool ++ (match b.get_ballots with | some bs => bs | none => []))

/-- The re-append phase of `try_update_longest`: write each new block at
consecutive indices starting from the fork index (one KV tick per put). -/
def write_loop (F : Faults) :
    List Block → Nat → Nat → List (Nat × Block) →
    Except Unit (Nat × Nat × List (Nat × Block))
  | [], n, index, txn => Except.ok (n, index, txn)
  | b :: rest, n, index, txn =>
    if F n then Except.error ()
    else write_loop F rest (n + 1) (index + 1) (aput txn index b)

/-- `Blockchain::try_update_longest` (lines 167-207), parametrized by a KV
fault schedule.  Result `none` models the panic of `blocks[0]` on an empty
vector.  Otherwise the result is the post-call state paired with the returned
`Result`: precondition failures happen before any mutation; mid-transaction
faults abort the write transaction (pending store discarded, height not yet
updated) but keep the ballots already pushed onto the in-memory pool.  Note
the strip range is `fork_index..height`, which in Rust excludes `height`
itself, and that `hash_indexes` is never touched. -/
def Blockchain.try_update_longest (F : Faults) (chain : Blockchain)
    (fork_index : Nat) (blocks : List Block) :
    Option (Blockchain × Except Error Nat) :=
  match blocks with
  | [] => none
  | b0 :: _ =>
    if F 0 then some (chain, Except.error Error.heed)
    else
      match alookup chain.chain_db fork_index with
      | none => some (chain, Except.error (Error.blockNotFound fork_index))
      | some fork_block =>
        if b0.hash = fork_block.hash ∧ is_valid_chain blocks then
          match strip_loop F (List.range' fork_index (chain.height - fork_index)) 1
              chain.chain_db chain.ballot_pool with
          | Except.error pool' =>
            some ({ chain with ballot_pool := pool' }, Except.error Error.heed)
          | Except.ok (n, txn, pool') =>
            match write_loop F blocks n fork_index txn with
            | Except.error _ =>
              some ({ chain with ballot_pool := pool' }, Except.error Error.heed)
            | Except.ok (n', end_index, txn') =>
              if F n' then
                some ({ chain with ballot_pool := pool' }, Except.error Error.heed)
              else
                some ({ chain with
                    chain_db := txn',
                    ballot_pool := pool',
                    height := end_index - 1 },
                  Except.ok end_index)
        else
          some (chain, Except.error Error.invalidNewBlock)

/-- The loop of `Blockchain::blocks` over a list of indices: push
`get_block(index).unwrap()` for each index; `none` models the `unwrap` panic
on a missing index. -/
def Blockchain.blocks_go (chain : Blockchain) : List Nat → Option (List Block)
  | [] => some []
  | i :: rest =>
    match alookup chain.chain_db i with
    | none => none
    | some b =>
      match Blockchain.blocks_go chain rest with
      | none => none
      | some bs => some (b :: bs)

/-- `Blockchain::blocks` (lines 224-230): the loop runs over `1..height`, and
the Rust range excludes `height` itself. -/
def Blockchain.blocks (chain : Blockchain) : Option (List Block) :=
  chain.blocks_go (List.range' 1 (chain.height - 1))

/-- `SyncResponse` from `src/node/src/protocols/chain_sync/protocol.rs`
(`Found` carries a `ChainSyncInfo`). -/
inductive SyncResponse where
  | found (fork_index : Nat) (block : Block) (remaining : Nat)
  | notFound
  deriving DecidableEq

/-- Outcome of the sync initiator: `Ok(stream)`, `Err(CborCodecError)`, or a
Rust panic. -/
inductive SyncOutcome where
  | success (chain : Blockchain)
  | syncError (chain : Blockchain)
  | panicked (chain : Blockchain)
  deriving DecidableEq

/-- The loop of `send_sync` (protocol.rs lines 60-101) over a prefix-closed
script of peer responses.  Each iteration first sends a request built with
`get_hash_at(height).unwrap()` (panic when the index is missing), then matches
the next frame: `Found` pushes the block into the buffer and, on the final
frame (`remaining == 0`), calls `try_update_longest`; when that fails, the
source executes `update_result.unwrap()` inside the log line, which panics on
an `Err`; when it succeeds the function returns `Ok(stream)`.  `NotFound` at
height 1 and end-of-stream terminate with an error. -/
def send_sync_loop (F : Faults) (chain : Blockchain) :
    Nat → List Block → List SyncResponse → SyncOutcome
  | height, _buffer, [] =>
    if (alookup chain.chain_db height).isNone then SyncOutcome.panicked chain
    else SyncOutcome.syncError chain
  | height, buffer, SyncResponse.found fork_index block remaining :: rest =>
    if (alookup chain.chain_db height).isNone then SyncOutcome.panicked chain
    else
      let buffer' := buffer ++ [block]
      if remaining = 0 then
        match Blockchain.try_update_longest F chain fork_index buffer' with
        | none => SyncOutcome.panicked chain
        | some (chain', Except.error _) => SyncOutcome.panicked chain'
        | some (chain', Except.ok _) => SyncOutcome.success chain'
      else send_sync_loop F chain height buffer' rest
  | height, buffer, SyncResponse.notFound :: rest =>
    if (alookup chain.chain_db height).isNone then SyncOutcome.panicked chain
    else if height = 1 then SyncOutcome.syncError chain
    else send_sync_loop F chain (height - 1) buffer rest

/-- `send_sync`: start the initiator at the local height with an empty block
buffer. -/
def send_sync (F : Faults) (chain : Blockchain) (msgs : List SyncResponse) : SyncOutcome :=
  send_sync_loop F chain chain.height [] msgs

/-- `DelegationGraph::get_adj_list` read back at one representative: the list
of direct delegators of `r`, derived from the `delegator -> representative`
map exactly as the source derives its inverse adjacency. -/
def adj_list (delegation_map : List (Nat × Nat)) (r : Nat) : List Nat :=
  (delegation_map.filter (fun p => decide (p.2 = r))).map Prod.fst

/-- The iterative DFS of `DelegationGraph::resolve_power`
(`src/node/src/trustee/delegations.rs` lines 75-94): pop `next`, insert it
into the visited set, bump the accumulator, and push every child (direct
delegator) that is neither visited nor itself a voter.  The stack is modelled
with its top at the head (`Vec::push`/`Vec::pop` act on the tail, so children
pushed in list order are popped in reverse order).  Fuel-indexed; `none`
models non-termination within the given fuel. -/
def resolve_power_loop (delegation_map : List (Nat × Nat)) (voters : List Nat) :
    Nat → List Nat → List Nat → Nat → Option Nat
  | _, [], _, accumulator => some accumulator
  | 0, _ :: _, _, _ => none
  | fuel + 1, next :: rest, visited, accumulator =>
    let visited' := if next ∈ visited then visited else next :: visited
    let pushed := (adj_list delegation_map next).filter
      (fun c => decide (c ∉ visited' ∧ c ∉ voters))
    resolve_power_loop delegation_map voters fuel
      (pushed.reverse ++ rest) visited' (accumulator + 1)

/-- `DelegationGraph::resolve_power`, with fuel `|delegation_map| + 1` (one pop
per distinct reachable node: the root plus at most one per delegator). -/
def resolve_power (delegation_map : List (Nat × Nat)) (public_key : Nat)
    (voters : List Nat) : Option Nat :=
  resolve_power_loop delegation_map voters (delegation_map.length + 1) [public_key] [] 0

/-- The loop of `DelegationGraph::generate_weights`: one `resolve_power` call
per voter in the given worklist, collecting `voter -> power` entries. -/
def generate_weights_go (delegation_map : List (Nat × Nat)) (voters : List Nat) :
    List Nat → Option (List (Nat × Nat))
  | [] => some []
  | v :: rest =>
    match resolve_power delegation_map v voters with
    | none => none
    | some p =>
      match generate_weights_go delegation_map voters rest with
      | none => none
      | some w => some ((v, p) :: w)

/-- `DelegationGraph::generate_weights` (delegations.rs lines 64-73). -/
def generate_weights (delegation_map : List (Nat × Nat)) (voters : List Nat) :
    Option (List (Nat × Nat)) :=
  generate_weights_go delegation_map voters voters

/-- Reachability along the inverse delegation graph, as traversed by
`resolve_power`: `Reaches delegation_map voters avoid v m` holds when the
DFS rooted at `v` can walk from `v` down inverse-delegation edges to `m`,
every node strictly below `v` on the walk (including `m` itself) being
neither a voter nor in `avoid`.  Equivalently — reading the walk upward —
`m`'s unique chain of representatives reaches the voter `v` without passing
through `avoid` or any other voter first.  With `avoid = []` this is the set
of census members whose voting power flows to `v`. -/
inductive Reaches (delegation_map : List (Nat × Nat)) (voters : List Nat)
    (avoid : List Nat) (v : Nat) : Nat → Prop where
  | refl : Reaches delegation_map voters avoid v v
  | step (m r : Nat) : m ∉ avoid → m ∉ voters →
      alookup delegation_map m = some r →
      Reaches delegation_map voters avoid v r →
      Reaches delegation_map voters avoid v m

/-- Loop invariant of the `resolve_power` DFS rooted at `v`: the stack and
visited set are duplicate-free and disjoint; the root is visited (or the loop
has not started); every non-root stack entry was pushed by its already-visited
representative; everything on the stack or visited is genuinely reachable
from `v`; everything reachable is either visited already or still reachable
from a stack entry avoiding the visited set; and both lists live in the
finite universe `{v} ∪ delegators`. -/
structure ResolveInv (delegation_map : List (Nat × Nat)) (voters : List Nat)
    (v : Nat) (stack visited : List Nat) : Prop where
  ndStack : stack.Nodup
  ndVis : visited.Nodup
  disj : ∀ x ∈ stack, x ∉ visited
  rootVis : v ∈ visited ∨ (stack = [v] ∧ visited = [])
  parentVis : ∀ x ∈ stack,
    x = v ∨ ∃ r, alookup delegation_map x = some r ∧ r ∈ visited
  soundStack : ∀ x ∈ stack, Reaches delegation_map voters [] v x
  soundVis : ∀ x ∈ visited, Reaches delegation_map voters [] v x
  complete : ∀ m, Reaches delegation_map voters [] v m →
    m ∈ visited ∨ ∃ s ∈ stack, Reaches delegation_map voters visited s m
  univStack : ∀ x ∈ stack, x = v ∨ x ∈ delegation_map.map Prod.fst
  univVis : ∀ x ∈ visited, x = v ∨ x ∈ delegation_map.map Prod.fst

/-- Sum of the values of a weight map. -/
def sum_weights (w : List (Nat × Nat)) : Nat :=
  (w.map Prod.snd).sum

/-- The ballots of a block when its data is `Ballots`, else `[]` (the shape in
which both `try_update_longest` and `generate_vote_result` consume
`get_ballots`). -/
def block_ballots (b : Block) : List (Signed Ballot) :=
  match b.data with
  | BlockData.ballots bs => bs
  | _ => []

/-- One step of the retention loop of `generate_vote_result`
(`src/node/src/trustee/resolve.rs` lines 27-43):
`entry(signer).and_modify(replace if strictly newer).or_insert`. -/
def retain_step (m : List (Nat × Ballot)) (sb : Signed Ballot) : List (Nat × Ballot) :=
  match alookup m sb.signer with
  | some current =>
    if current.timestamp < sb.data.timestamp then aput m sb.signer sb.data else m
  | none => aput m sb.signer sb.data

/-- The full retention walk of `generate_vote_result`: fold over the chain
snapshot, per signer keeping the ballot with the greatest timestamp. -/
def retain_latest (blocks : List Block) : List (Nat × Ballot) :=
  blocks.foldl (fun m b => (block_ballots b).foldl retain_step m) []

/-- `generate_vote_result` (resolve.rs lines 20-74): walk `chain.blocks()`,
retain the most recent ballot per signer, generate weights for the voter set,
weight every retained ballot, homomorphically sum, and compare the decrypted
totals.  Crypto is modelled at the plaintext level; `none` models the panics
of the source (`unwrap` in `blocks`) and fuel exhaustion in the resolver. -/
def generate_vote_result (chain : Blockchain) (delegation_map : List (Nat × Nat)) :
    Option Bool :=
  match chain.blocks with
  | none => none
  | some bl =>
    let retained := retain_latest bl
    let voter_set := retained.map Prod.fst
    match generate_weights delegation_map voter_set with
    | none => none
    | some weight_map =>
      let weighted := retained.map (fun p =>
        match alookup weight_map p.1 with
        | some w => (p.1, p.2.weight w)
        | none => p)
      let totals := weighted.foldl (fun acc p => p.2.sum acc.1 acc.2) ((0, 0) : Nat × Nat)
      some (decide (totals.2 < totals.1))

/-- Agreement of the in-memory `hash -> index` map with the persistent
`index -> Block` store: every stored block's hash maps to its index, and every
map entry points back at a stored block with that hash. -/
def hash_index_agrees (chain : Blockchain) : Bool :=
  chain.chain_db.all (fun p => alookup chain.hash_indexes p.2.hash == some p.1) &&
  chain.hash_indexes.all (fun p =>
    match alookup chain.chain_db p.2 with
    | some b => b.hash == p.1
    | none => false)

/-! ### Association-list lemmas -/

theorem alookup_aput_self {κ α : Type} [DecidableEq κ] (l : List (κ × α)) (k : κ) (v : α) :
    alookup (aput l k v) k = some v := by
  induction l with
  | nil => simp [aput, alookup]
  | cons p rest ih =>
    obtain ⟨k0, v0⟩ := p
    by_cases h : k0 = k
    · subst h; simp [aput, alookup]
    · simp [aput, alookup, h, ih]

theorem alookup_aput_ne {κ α : Type} [DecidableEq κ] (l : List (κ × α)) (k k' : κ) (v : α)
    (h : k ≠ k') : alookup (aput l k v) k' = alookup l k' := by
  induction l with
  | nil => simp [aput, alookup, h]
  | cons p rest ih =>
    obtain ⟨k0, v0⟩ := p
    by_cases h0 : k0 = k
    · subst h0; simp [aput, alookup, h]
    · simp [aput, alookup, h0, ih]

theorem aput_eq_of_alookup {κ α : Type} [DecidableEq κ] (l : List (κ × α)) (k : κ) (v : α)
    (h : alookup l k = some v) : aput l k v = l := by
  induction l with
  | nil => simp [alookup] at h
  | cons p rest ih =>
    obtain ⟨k0, v0⟩ := p
    by_cases h0 : k0 = k
    · subst h0
      simp [alookup] at h
      simp [aput, h]
    · simp [alookup, h0] at h
      simp [aput, h0, ih h]

theorem alookup_mem {κ α : Type} [DecidableEq κ] (l : List (κ × α)) (k : κ) (v : α)
    (h : alookup l k = some v) : (k, v) ∈ l := by
  induction l with
  | nil => simp [alookup] at h
  | cons p rest ih =>
    obtain ⟨k0, v0⟩ := p
    by_cases h0 : k0 = k
    · subst h0
      simp [alookup] at h
      simp [h]
    · simp [alookup, h0] at h
      simp [ih h]

theorem mem_alookup {κ α : Type} [DecidableEq κ] (l : List (κ × α)) (k : κ) (v : α)
    (hnd : (l.map Prod.fst).Nodup) (h : (k, v) ∈ l) : alookup l k = some v := by
  induction l with
  | nil => simp at h
  | cons p rest ih =>
    obtain ⟨k0, v0⟩ := p
    simp at hnd
    rcases List.mem_cons.1 h with h1 | h1
    · cases h1
      simp [alookup]
    · have hk : k0 ≠ k := by
        intro hk
        subst hk
        exact hnd.1 v h1

      simp [alookup, hk, ih hnd.2 h1]

theorem blocks_go_eq_some_forall2 (chain : Blockchain) :
    ∀ (xs : List Nat) (l : List Block),
      chain.blocks_go xs = some l ↔
        List.Forall₂ (fun i b => alookup chain.chain_db i = some b) xs l := by
  intro xs
  induction xs with
  | nil =>
    intro l
    constructor
    · intro h
      simp [Blockchain.blocks_go] at h
      simp [← h]
    · intro h
      cases h
      simp [Blockchain.blocks_go]
  | cons i rest ih =>
    intro l
    constructor
    · intro h
      rw [Blockchain.blocks_go] at h
      cases hx : alookup chain.chain_db i with
      | none => simp [hx] at h
      | some b =>
        rw [hx] at h
        cases hxs : chain.blocks_go rest with
        | none => simp [hxs] at h
        | some bs =>
          rw [hxs] at h
          simp at h
          subst h
          exact List.Forall₂.cons hx ((ih bs).1 hxs)
    · intro h
      cases h with
      | cons hx hxs =>
        rename_i b bs
        rw [Blockchain.blocks_go, hx, ((ih bs).2 hxs)]

/-! ### C1 — `Ballot::validate_proofs` -/

/-- C1: the source of `Ballot::validate_proofs` returns `true` for every
ballot whatsoever — the two `verify_self` calls are commented out and the
issue id is never read — so it cannot "return false whenever the issue_id is
the empty string", nor does its result depend on whether the range proofs
verify.  This theorem exhibits the unconditional `true`. -/
theorem validate_proofs_always_true (b : Ballot) : b.validate_proofs = true :=
  rfl

/-- C1 failing input: a ballot whose issue_id is the empty string is accepted
(`validate_proofs` returns `true`), where the claim requires `false`. -/
theorem validate_proofs_accepts_empty_issue_id :
    Ballot.validate_proofs
      { timestamp := 0, issue_id := "", vote_for := 0, vote_against := 0,
        proof_for := 0, proof_against := 0 } = true :=
  rfl

/-! ### C10 — `Blockchain::blocks` excludes the head -/

/-- C10: the snapshot returned by `Blockchain::blocks` consists of exactly the
stored blocks at indices `1` through `height - 1`: it has `height - 1`
entries, the `k`-th entry is the stored block at index `k + 1`, and every
entry comes from an index strictly below `height` — so the head block (index
`height`) is never read.  Since `generate_vote_result` walks exactly
`chain.blocks`, ballots contained in the head block are never considered by
the tally. -/
theorem blocks_are_indices_below_height (chain : Blockchain) (l : List Block)
    (h : chain.blocks = some l) :
    l.length = chain.height - 1 ∧
    (∀ k : Fin l.length, alookup chain.chain_db (1 + k.1) = some (l.get k)) ∧
    (∀ b ∈ l, ∃ i, 1 ≤ i ∧ i < chain.height ∧ alookup chain.chain_db i = some b) := by
  rw [Blockchain.blocks, blocks_go_eq_some_forall2] at h
  have hlen : l.length = chain.height - 1 := by
    have := h.length_eq
    simpa using this.symm
  have hgetr := List.forall₂_iff_get.1 h
  refine ⟨hlen, ?_, ?_⟩
  · intro k
    have hk2 : k.1 < (List.range' 1 (chain.height - 1)).length := by
      simpa [hlen] using k.2
    have hf := hgetr.2 k.1 hk2 k.2
    have hr : (List.range' 1 (chain.height - 1)).get ⟨k.1, hk2⟩ = 1 + k.1 := by
      simp [List.get_eq_getElem, List.getElem_range']
    rw [hr] at hf
    simpa using hf
  · intro b hb
    obtain ⟨k, hk⟩ := List.get_of_mem hb
    have hk2 : k.1 < (List.range' 1 (chain.height - 1)).length := by
      simpa [hlen] using k.2
    have hf := hgetr.2 k.1 hk2 k.2
    have hr : (List.range' 1 (chain.height - 1)).get ⟨k.1, hk2⟩ = 1 + k.1 := by
      simp [List.get_eq_getElem, List.getElem_range']
    rw [hr] at hf
    refine ⟨1 + k.1, by omega, ?_, ?_⟩
    · have hk3 : k.1 < chain.height - 1 := by
        have := k.2
        omega
      omega
    · rw [show l.get ⟨k.1, k.2⟩ = b from hk] at hf
      exact hf

/-- C10 witness: a concrete chain of height 3 whose snapshot is its blocks at
indices 1 and 2. -/
def c10G : Block := ⟨0, BHash.raw [0], 0, 0, BlockData.genesis "", 0⟩

def c10B2 : Block := ⟨5, c10G.hash, 1, 0, BlockData.ballots [], 0⟩

def c10B3 : Block := ⟨6, c10B2.hash, 1, 0, BlockData.ballots [], 0⟩

def c10chain : Blockchain :=
  ⟨[(1, c10G), (2, c10B2), (3, c10B3)], [], 3, []⟩

theorem blocks_are_indices_below_height_witness :
    [c10G, c10B2].length = c10chain.height - 1 ∧
    (∀ k : Fin [c10G, c10B2].length,
      alookup c10chain.chain_db (1 + k.1) = some ([c10G, c10B2].get k)) ∧
    (∀ b ∈ [c10G, c10B2], ∃ i, 1 ≤ i ∧ i < c10chain.height ∧
      alookup c10chain.chain_db i = some b) :=
  blocks_are_indices_below_height c10chain [c10G, c10B2] rfl

/-! ### C4 — the hash index is not maintained by `append`/`try_update_longest` -/

def c4G : Block := ⟨0, BHash.raw [0], 0, 0, BlockData.genesis "", 0⟩

def c4B2 : Block := ⟨5, c4G.hash, 1, 0, BlockData.ballots [], 1⟩

def c4chain0 : Blockchain := ⟨[(1, c4G)], [(c4G.hash, 1)], 1, []⟩

def c4chain1 : Blockchain := ⟨[(1, c4G), (2, c4B2)], [(c4G.hash, 1)], 2, []⟩

/-- C4 counterexample: on the freshly opened chain `c4chain0` the hash index
agrees with the store; `append` of a valid block succeeds, but afterwards the
agreement is broken — the appended block's hash is absent from
`hash_indexes`.  So the invariant is not preserved by `Append`. -/
theorem append_breaks_hash_index_agreement :
    hash_index_agrees c4chain0 = true ∧
    c4chain0.append c4B2 = Except.ok c4chain1 ∧
    hash_index_agrees c4chain1 = false :=
  ⟨by decide, rfl, by decide⟩

/-- C4 amended: `Blockchain::append` and `Blockchain::try_update_longest`
leave the in-memory `hash_indexes` map entirely unchanged (the source never
touches it outside `Blockchain::new`); in particular `append` does not add
the new block's hash and reorg does not rebuild affected entries, so the
store/hash-index agreement established at open time is not preserved. -/
theorem append_reorg_leave_hash_indexes_unchanged :
    (∀ (chain : Blockchain) (b : Block) (chain' : Blockchain),
      chain.append b = Except.ok chain' → chain'.hash_indexes = chain.hash_indexes) ∧
    (∀ (F : Faults) (chain : Blockchain) (fork_index : Nat) (blocks : List Block)
      (chain' : Blockchain) (r : Except Error Nat),
      Blockchain.try_update_longest F chain fork_index blocks = some (chain', r) →
      chain'.hash_indexes = chain.hash_indexes) := by
  constructor
  · intro chain b chain' h
    rw [Blockchain.append] at h
    cases hg : chain.get_block chain.height with
    | error e => rw [hg] at h; cases h
    | ok head =>
      rw [hg] at h
      by_cases hv : b.is_valid head
      · simp [hv] at h
        rw [← h]
      · simp [hv] at h
  · intro F chain fork_index blocks chain' r h
    rw [Blockchain.try_update_longest.eq_def] at h
    repeat' split at h
    all_goals simp at h
    all_goals obtain ⟨h1, h2⟩ := h
    all_goals rw [← h1]

/-- C4 witness for the amended statement: a concrete successful append and a
concrete successful reorg, both leaving `hash_indexes` as it was. -/
theorem append_reorg_leave_hash_indexes_unchanged_witness :
    c4chain1.hash_indexes = c4chain0.hash_indexes ∧
    c4chain1.hash_indexes = c4chain1.hash_indexes :=
  ⟨append_reorg_leave_hash_indexes_unchanged.1 c4chain0 c4B2 c4chain1 rfl,
   append_reorg_leave_hash_indexes_unchanged.2 (fun _ => false) c4chain1 2 [c4B2]
     c4chain1 (Except.ok 3) rfl⟩

/-! ### C2 — reorg drops the ballots of the replaced head block -/

def c2sbX : Signed Ballot := ⟨100, 7, ⟨1, "issue", 1, 0, 0, 0⟩⟩

def c2sbZ : Signed Ballot := ⟨200, 8, ⟨2, "issue", 0, 1, 0, 0⟩⟩

def c2G : Block := ⟨0, BHash.raw [0], 0, 0, BlockData.genesis "", 0⟩

def c2B1 : Block := ⟨10, c2G.hash, 1, 0, BlockData.ballots [c2sbX], 0⟩

def c2B1x : Block := ⟨11, c2G.hash, 2, 0, BlockData.ballots [], 0⟩

def c2B2x : Block := ⟨12, c2B1x.hash, 2, 0, BlockData.ballots [], 0⟩

def c2chain : Blockchain :=
  ⟨[(1, c2G), (2, c2B1)], [(c2G.hash, 1), (c2B1.hash, 2)], 2, [c2sbZ]⟩

/-- C2 failing input, evaluated: the node holds `G, B1` (ballot `X` in the
head block `B1`) with pool `[Z]`, and successfully reorgs to `G, B1', B2'`
where `X` occurs in neither new block.  The strip loop of
`try_update_longest` runs over `fork_index..height`, which in Rust excludes
`height`, so the replaced head block `B1` is never read and its ballot `X` is
not pushed back: the resulting pool is exactly `[Z]`, where the claim (and
scenario S5 of the spec) requires `Z` plus `X`. -/
theorem reorg_drops_replaced_head_ballots :
    (Blockchain.try_update_longest (fun _ => false) c2chain 1 [c2G, c2B1x, c2B2x]).map
      (fun p => (p.1.ballot_pool, p.1.height, p.2)) = some ([c2sbZ], 3, Except.ok 4) ∧
    c2sbX ∉ [c2sbZ] ∧
    c2sbX ∉ block_ballots c2B1x ∧ c2sbX ∉ block_ballots c2B2x ∧
    c2sbX ∈ block_ballots c2B1 :=
  ⟨rfl, by decide, by decide, by decide, by decide⟩

/-! ### C3 — `send_sync` does not surface a failed reorg as `SyncError` -/

def c3G : Block := ⟨0, BHash.raw [0], 0, 0, BlockData.genesis "", 0⟩

def c3Gbad : Block := ⟨5, BHash.raw [0], 0, 0, BlockData.genesis "", 0⟩

def c3chain : Blockchain := ⟨[(1, c3G)], [(c3G.hash, 1)], 1, []⟩

/-- C3 failing input, evaluated: the peer's final `Found` frame
(`remaining == 0`) carries a block whose hash does not match the local block
at the fork index, so `try_update_longest` on the collected buffer returns
`Err(InvalidNewBlock)`.  The source then executes
`tracing::info!("Failed to update: {}", update_result.unwrap())`, i.e. it
calls `unwrap()` on the `Err` value, which panics — and had the log line not
panicked, the function would fall through to `return Ok(stream)`, a
successful termination.  Either way the initiator does not terminate with a
`SyncError` error result as the claim requires. -/
theorem send_sync_panics_on_failed_reorg :
    Blockchain.try_update_longest (fun _ => false) c3chain 1 [c3Gbad] =
      some (c3chain, Except.error Error.invalidNewBlock) ∧
    send_sync (fun _ => false) c3chain [SyncResponse.found 1 c3Gbad 0] =
      SyncOutcome.panicked c3chain :=
  ⟨rfl, rfl⟩

/-! ### C6 — reorg atomicity for height and KV contents -/

/-- C6: whenever `try_update_longest` returns an `Err` — be it a precondition
failure before the write transaction or a KV fault in the middle of the strip
or re-append phase (any fault schedule `F`) — the resulting state has exactly
the original height and the original persistent store: the pending
transaction is rolled back and `metadata.height` is only assigned after a
successful commit.  (The in-memory ballot pool is *not* restored, which is
why the claim — like the spec — speaks only of `height` and the KV
contents.) -/
theorem try_update_longest_atomic (F : Faults) (chain : Blockchain)
    (fork_index : Nat) (blocks : List Block) (chain' : Blockchain) (e : Error)
    (h : Blockchain.try_update_longest F chain fork_index blocks =
      some (chain', Except.error e)) :
    chain'.height = chain.height ∧ chain'.chain_db = chain.chain_db := by
  rw [Blockchain.try_update_longest.eq_def] at h
  repeat' split at h
  all_goals simp at h
  all_goals obtain ⟨h1, h2⟩ := h
  all_goals rw [← h1]
  all_goals exact ⟨rfl, rfl⟩

def c6sb : Signed Ballot := ⟨300, 9, ⟨3, "issue", 1, 0, 0, 0⟩⟩

def c6Bb : Block := ⟨0, BHash.raw [0], 0, 0, BlockData.ballots [c6sb], 0⟩

def c6C : Block := ⟨10, c6Bb.hash, 1, 0, BlockData.ballots [], 0⟩

def c6chain : Blockchain := ⟨[(1, c6Bb), (2, c6C)], [], 2, []⟩

/-- The KV fault schedule that fails the fourth KV operation: here the first
`put` of the re-append phase, after the strip phase has already pushed the
stripped ballots onto the in-memory pool. -/
def c6F : Faults := fun n => decide (3 ≤ n)

def c6chainE : Blockchain := ⟨[(1, c6Bb), (2, c6C)], [], 2, [c6sb]⟩

/-- C6 witness: a reorg aborted by a KV fault in the re-append phase leaves
height and store untouched (even though the pool has visibly grown from `[]`
to `[c6sb]`, i.e. the call was not a no-op). -/
theorem try_update_longest_atomic_witness :
    c6chainE.height = c6chain.height ∧ c6chainE.chain_db = c6chain.chain_db :=
  try_update_longest_atomic c6F c6chain 1 [c6Bb] c6chainE Error.heed rfl

/-! ### C7 — reorg with `fork_index = height`, `new_blocks = [head]` is a no-op -/

/-- C7: on any chain whose store holds `head` at index `height`, calling
`try_update_longest(height, [head])` (no KV faults) succeeds with `Ok(height+1)`
and returns the state completely unchanged: same height, same stored blocks,
same ballot pool (and same hash index).  The preconditions hold trivially
(`[head]` links to itself and matches the stored fork block), the strip range
`height..height` is empty, and the single `put` rewrites index `height` with
the identical block. -/
theorem try_update_longest_noop (chain : Blockchain) (head : Block)
    (h : alookup chain.chain_db chain.height = some head) :
    Blockchain.try_update_longest (fun _ => false) chain chain.height [head] =
      some (chain, Except.ok (chain.height + 1)) := by
  rw [Blockchain.try_update_longest.eq_def]
  simp [h, is_valid_chain, strip_loop, write_loop,
    aput_eq_of_alookup _ _ _ h]

def c7G : Block := ⟨0, BHash.raw [0], 0, 0, BlockData.genesis "", 0⟩

def c7chain : Blockchain := ⟨[(1, c7G)], [(c7G.hash, 1)], 1, []⟩

/-- C7 witness: the no-op reorg on a concrete one-block chain. -/
theorem try_update_longest_noop_witness :
    Blockchain.try_update_longest (fun _ => false) c7chain 1 [c7G] =
      some (c7chain, Except.ok 2) :=
  try_update_longest_noop c7chain c7G rfl

/-! ### C5 — latest-writer-wins retention -/

theorem alookup_retain_step_other (m : List (Nat × Ballot)) (sb : Signed Ballot)
    (s : Nat) (h : sb.signer ≠ s) :
    alookup (retain_step m sb) s = alookup m s := by
  rw [retain_step]
  cases hc : alookup m sb.signer with
  | none => exact alookup_aput_ne m sb.signer s sb.data h
  | some current =>
    by_cases hlt : current.timestamp < sb.data.timestamp
    · simp only [hlt, if_true]
      exact alookup_aput_ne m sb.signer s sb.data h
    · simp only [hlt, if_false]

theorem retain_step_dominates (m : List (Nat × Ballot)) (sb : Signed Ballot) :
    ∃ b, alookup (retain_step m sb) sb.signer = some b ∧
      sb.data.timestamp ≤ b.timestamp ∧
      (∀ c, alookup m sb.signer = some c → c.timestamp ≤ b.timestamp) := by
  rw [retain_step]
  cases hc : alookup m sb.signer with
  | none =>
    refine ⟨sb.data, alookup_aput_self m sb.signer sb.data, le_refl _, ?_⟩
    intro c hcc
    cases hcc
  | some current =>
    by_cases hlt : current.timestamp < sb.data.timestamp
    · simp only [hlt, if_true]
      refine ⟨sb.data, alookup_aput_self m sb.signer sb.data, le_refl _, ?_⟩
      intro c hcc
      cases hcc
      exact le_of_lt hlt
    · simp only [hlt, if_false]
      refine ⟨current, hc, le_of_not_lt hlt, ?_⟩
      intro c hcc
      cases hcc
      exact le_refl _

theorem foldl_retain_dominates (sbs : List (Signed Ballot)) :
    ∀ (m : List (Nat × Ballot)) (s : Nat) (b : Ballot),
      alookup (sbs.foldl retain_step m) s = some b →
      (∀ sb ∈ sbs, sb.signer = s → sb.data.timestamp ≤ b.timestamp) ∧
      (∀ c, alookup m s = some c → c.timestamp ≤ b.timestamp) := by
  induction sbs with
  | nil =>
    intro m s b h
    simp at h
    constructor
    · intro sb hmem
      simp at hmem
    · intro c hc
      rw [h] at hc
      cases hc
      exact le_refl _
  | cons sb sbs ih =>
    intro m s b h
    rw [List.foldl_cons] at h
    have IH := ih (retain_step m sb) s b h
    constructor
    · intro sb' hmem hsig
      rcases List.mem_cons.1 hmem with h1 | h1
      · subst h1
        obtain ⟨b0, hb0, hle, _⟩ := retain_step_dominates m sb'
        rw [hsig] at hb0
        exact le_trans hle (IH.2 b0 hb0)
      · exact IH.1 sb' h1 hsig
    · intro c hc
      by_cases hsig : sb.signer = s
      · obtain ⟨b0, hb0, _, hdom⟩ := retain_step_dominates m sb
        rw [hsig] at hb0 hdom
        exact le_trans (hdom c hc) (IH.2 b0 hb0)
      · have : alookup (retain_step m sb) s = some c := by
          rw [alookup_retain_step_other m sb s hsig]
          exact hc
        exact IH.2 c this

theorem foldl_retain_mem (sbs : List (Signed Ballot)) :
    ∀ (m : List (Nat × Ballot)) (s : Nat),
      ((∃ sb ∈ sbs, sb.signer = s) ∨ (alookup m s).isSome) →
      (alookup (sbs.foldl retain_step m) s).isSome := by
  induction sbs with
  | nil =>
    intro m s h
    rcases h with h | h
    · simp at h
    · simpa using h
  | cons sb sbs ih =>
    intro m s h
    rw [List.foldl_cons]
    apply ih
    rcases h with ⟨sb', hmem, hsig⟩ | h
    · rcases List.mem_cons.1 hmem with h1 | h1
      · subst h1
        right
        obtain ⟨b0, hb0, _, _⟩ := retain_step_dominates m sb'
        rw [hsig] at hb0
        simp [hb0]
      · exact Or.inl ⟨sb', h1, hsig⟩
    · right
      by_cases hsig : sb.signer = s
      · obtain ⟨b0, hb0, _, _⟩ := retain_step_dominates m sb
        rw [hsig] at hb0
        simp [hb0]
      · rw [alookup_retain_step_other m sb s hsig]
        exact h

theorem retain_latest_eq_foldl_join (bl : List Block) :
    retain_latest bl = ((bl.map block_ballots).flatten).foldl retain_step [] := by
  rw [retain_latest, List.foldl_flatten, List.foldl_map]

/-- C5 amended: for any chain whose tally snapshot `chain.blocks` — the
blocks at indices `1..height-1`; the head block is excluded, see C10 —
contains two signed ballots from the same signer with timestamps `t1 < t2`,
the ballot retained for that signer by `generate_vote_result`'s walk (the
unique per-signer entry that is subsequently weighted and summed) has
timestamp at least `t2`, and in particular strictly greater than `t1`: the
`t1` ballot is never that signer's contribution to the tally. -/
theorem latest_writer_wins (chain : Blockchain) (bl : List Block)
    (sb1 sb2 : Signed Ballot) (blk1 blk2 : Block)
    (_hbl : chain.blocks = some bl)
    (hB1 : blk1 ∈ bl) (hm1 : sb1 ∈ block_ballots blk1)
    (hB2 : blk2 ∈ bl) (hm2 : sb2 ∈ block_ballots blk2)
    (hs : sb2.signer = sb1.signer)
    (ht : sb1.data.timestamp < sb2.data.timestamp) :
    ∃ b, alookup (retain_latest bl) sb1.signer = some b ∧
      sb2.data.timestamp ≤ b.timestamp ∧ sb1.data.timestamp < b.timestamp := by
  have hflat1 : sb1 ∈ (bl.map block_ballots).flatten := by
    rw [List.mem_flatten]
    exact ⟨block_ballots blk1, List.mem_map_of_mem block_ballots hB1, hm1⟩
  have hflat2 : sb2 ∈ (bl.map block_ballots).flatten := by
    rw [List.mem_flatten]
    exact ⟨block_ballots blk2, List.mem_map_of_mem block_ballots hB2, hm2⟩
  have hsome : (alookup (retain_latest bl) sb1.signer).isSome := by
    rw [retain_latest_eq_foldl_join]
    exact foldl_retain_mem _ [] sb1.signer (Or.inl ⟨sb1, hflat1, rfl⟩)
  obtain ⟨b, hb⟩ := Option.isSome_iff_exists.1 hsome
  have hdom : sb2.data.timestamp ≤ b.timestamp := by
    rw [retain_latest_eq_foldl_join] at hb
    exact (foldl_retain_dominates _ [] sb1.signer b hb).1 sb2 hflat2 hs
  exact ⟨b, hb, hdom, lt_of_lt_of_le ht hdom⟩

def c5sb1 : Signed Ballot := ⟨51, 7, ⟨1, "issue", 1, 0, 0, 0⟩⟩

def c5sb2 : Signed Ballot := ⟨52, 7, ⟨2, "issue", 0, 1, 0, 0⟩⟩

def c5G : Block := ⟨0, BHash.raw [0], 0, 0, BlockData.genesis "", 0⟩

def c5B2 : Block := ⟨10, c5G.hash, 1, 0, BlockData.ballots [c5sb1], 0⟩

def c5B3 : Block := ⟨20, c5B2.hash, 1, 0, BlockData.ballots [c5sb2], 0⟩

def c5chain : Blockchain :=
  ⟨[(1, c5G), (2, c5B2), (3, c5B3)], [], 3, []⟩

/-- C5 counterexample to the claim as stated: the chain `G, B2, B3` contains
two signed ballots of signer `7` with timestamps `1 < 2`, but the `t2` ballot
lives in the head block `B3` (index 3 = height), which `blocks()` excludes
from the tally snapshot.  The retained map of the walk is exactly
`[(7, c5sb1.data)]` — the `t1` ballot — and the full tally returns
`some true` (the `t1` ballot voted yes) where a `t2`-only contribution (a no
vote) would have produced `false`.  So the `t1` ballot *is* weighted and
summed. -/
theorem tally_uses_older_ballot_when_newer_only_in_head :
    alookup c5chain.chain_db 2 = some c5B2 ∧ c5sb1 ∈ block_ballots c5B2 ∧
    alookup c5chain.chain_db c5chain.height = some c5B3 ∧
    c5sb2 ∈ block_ballots c5B3 ∧
    c5sb1.signer = c5sb2.signer ∧
    c5sb1.data.timestamp < c5sb2.data.timestamp ∧
    (c5chain.blocks).map retain_latest = some [(7, c5sb1.data)] ∧
    generate_vote_result c5chain [] = some true :=
  ⟨rfl, by decide, rfl, by decide, rfl, by decide, rfl, rfl⟩

def c5wB3 : Block := ⟨30, c5B3.hash, 1, 0, BlockData.ballots [], 0⟩

def c5wchain : Blockchain :=
  ⟨[(1, c5G), (2, c5B2), (3, c5B3), (4, c5wB3)], [], 4, []⟩

/-- C5 witness for the amended statement: on a chain of height 4 whose walked
snapshot contains both ballots of signer `7`, the retained entry has
timestamp at least `2`. -/
theorem latest_writer_wins_witness :
    ∃ b, alookup (retain_latest [c5G, c5B2, c5B3]) c5sb1.signer = some b ∧
      c5sb2.data.timestamp ≤ b.timestamp ∧ c5sb1.data.timestamp < b.timestamp :=
  latest_writer_wins c5wchain [c5G, c5B2, c5B3] c5sb1 c5sb2 c5B2 c5B3 rfl
    (by decide) (by decide) (by decide) (by decide) rfl (by decide)

/-! ### C8/C9 — the delegation resolver -/

theorem mem_adj_list (delegation_map : List (Nat × Nat)) (r c : Nat) :
    c ∈ adj_list delegation_map r ↔ (c, r) ∈ delegation_map := by
  rw [adj_list, List.mem_map]
  constructor
  · rintro ⟨⟨a, b⟩, hmem, ha⟩
    rw [List.mem_filter] at hmem
    have hb : b = r := by simpa using hmem.2
    cases ha
    rw [← hb]
    exact hmem.1
  · intro h
    refine ⟨(c, r), ?_, rfl⟩
    rw [List.mem_filter]
    exact ⟨h, by simp⟩

theorem adj_list_nodup (delegation_map : List (Nat × Nat))
    (hnd : (delegation_map.map Prod.fst).Nodup) (r : Nat) :
    (adj_list delegation_map r).Nodup := by
  have hsub : (delegation_map.filter (fun p => decide (p.2 = r))).Sublist delegation_map :=
    List.filter_sublist _
  exact (hsub.map Prod.fst).nodup hnd

theorem reaches_split (delegation_map : List (Nat × Nat)) (voters : List Nat)
    (avoid : List Nat) (next : Nat) :
    ∀ {s m : Nat}, Reaches delegation_map voters avoid s m →
      Reaches delegation_map voters (next :: avoid) s m ∨ m = next ∨
      (∃ c, c ∉ voters ∧ c ∉ next :: avoid ∧
        alookup delegation_map c = some next ∧
        Reaches delegation_map voters (next :: avoid) c m) := by
  intro s m h
  induction h with
  | refl =>
    by_cases hs : s = next
    · exact Or.inr (Or.inl hs)
    · exact Or.inl (Reaches.refl)
  | step m r hm hv hr _hrec ih =>
    by_cases hmn : m = next
    · exact Or.inr (Or.inl hmn)
    · have hm' : m ∉ next :: avoid := by
        rw [List.mem_cons]
        rintro (h1 | h1)
        · exact hmn h1
        · exact hm h1
      rcases ih with hup | hrn | ⟨c, hc1, hc2, hc3, hc4⟩
      · exact Or.inl (Reaches.step m r hm' hv hr hup)
      · subst hrn
        exact Or.inr (Or.inr ⟨m, hv, hm', hr, Reaches.refl⟩)
      · exact Or.inr (Or.inr ⟨c, hc1, hc2, hc3, Reaches.step m r hm' hv hr hc4⟩)

theorem reaches_peel (delegation_map : List (Nat × Nat)) (voters : List Nat)
    (avoid : List Nat) :
    ∀ {s m : Nat}, Reaches delegation_map voters avoid s m → m ≠ s →
      ∃ c, alookup delegation_map c = some s ∧ c ∉ avoid ∧ c ∉ voters ∧
        Reaches delegation_map voters avoid c m := by
  intro s m h
  induction h with
  | refl =>
    intro hne
    exact absurd rfl hne
  | step m r hm hv hr _hrec ih =>
    intro _hne
    by_cases hrs : r = s
    · subst hrs
      exact ⟨m, hr, hm, hv, Reaches.refl⟩
    · obtain ⟨c, hc1, hc2, hc3, hc4⟩ := ih hrs
      exact ⟨c, hc1, hc2, hc3, Reaches.step m r hm hv hr hc4⟩

theorem resolve_inv_step (delegation_map : List (Nat × Nat)) (voters : List Nat)
    (v : Nat) (hnd : (delegation_map.map Prod.fst).Nodup)
    (next : Nat) (rest visited : List Nat)
    (inv : ResolveInv delegation_map voters v (next :: rest) visited) :
    ResolveInv delegation_map voters v
      (((adj_list delegation_map next).filter
          (fun c => decide (c ∉ next :: visited ∧ c ∉ voters))).reverse ++ rest)
      (next :: visited) := by
  have hnextstack : next ∈ next :: rest := List.mem_cons_self next rest
  have hnextvis : next ∉ visited := inv.disj next hnextstack
  set pushed := (adj_list delegation_map next).filter
      (fun c => decide (c ∉ next :: visited ∧ c ∉ voters)) with hpushed
  have hpmem : ∀ c, c ∈ pushed ↔
      ((c, next) ∈ delegation_map ∧ c ∉ next :: visited ∧ c ∉ voters) := by
    intro c
    rw [hpushed, List.mem_filter, mem_adj_list, decide_eq_true_eq]
  have hplook : ∀ c ∈ pushed, alookup delegation_map c = some next := by
    intro c hc
    exact mem_alookup _ _ _ hnd ((hpmem c).1 hc).1
  have hpnodup : pushed.Nodup := (adj_list_nodup delegation_map hnd next).filter _
  have hrestmem : ∀ x ∈ rest, x ∈ next :: rest := by
    intro x hx
    exact List.mem_cons_of_mem next hx
  have hnotrest : ∀ c ∈ pushed, c ∉ rest := by
    intro c hcp hcr
    rcases inv.parentVis c (hrestmem c hcr) with hcv | ⟨r, hrl, hrv⟩
    · subst hcv
      rcases inv.rootVis with hvv | ⟨hstack, _⟩
      · exact inv.disj c (hrestmem c hcr) hvv
      · have : rest = [] := by
          injection hstack with _ h2
        rw [this] at hcr
        exact List.not_mem_nil c hcr
    · have : r = next := by
        have h0 := (hplook c hcp).symm.trans hrl
        exact (Option.some_inj.1 h0).symm
      rw [this] at hrv
      exact hnextvis hrv
  constructor
  · -- ndStack
    rw [List.nodup_append]
    refine ⟨List.nodup_reverse.2 hpnodup, inv.ndStack.of_cons, ?_⟩
    intro c hc
    exact hnotrest c (List.mem_reverse.1 hc)
  · -- ndVis
    exact List.Nodup.cons hnextvis inv.ndVis
  · -- disj
    intro x hx
    rcases List.mem_append.1 hx with hx1 | hx1
    · exact ((hpmem x).1 (List.mem_reverse.1 hx1)).2.1
    · intro hmem
      rcases List.mem_cons.1 hmem with h1 | h1
      · subst h1
        exact (List.nodup_cons.1 inv.ndStack).1 hx1
      · exact inv.disj x (hrestmem x hx1) h1
  · -- rootVis
    left
    rcases inv.rootVis with hvv | ⟨hstack, _⟩
    · exact List.mem_cons_of_mem next hvv
    · have : next = v := by
        injection hstack
      rw [this]
      exact List.mem_cons_self v visited
  · -- parentVis
    intro x hx
    rcases List.mem_append.1 hx with hx1 | hx1
    · exact Or.inr ⟨next, hplook x (List.mem_reverse.1 hx1),
        List.mem_cons_self next visited⟩
    · rcases inv.parentVis x (hrestmem x hx1) with h1 | ⟨r, h1, h2⟩
      · exact Or.inl h1
      · exact Or.inr ⟨r, h1, List.mem_cons_of_mem next h2⟩
  · -- soundStack
    intro x hx
    rcases List.mem_append.1 hx with hx1 | hx1
    · have hx2 := List.mem_reverse.1 hx1
      exact Reaches.step x next (List.not_mem_nil x) ((hpmem x).1 hx2).2.2
        (hplook x hx2) (inv.soundStack next hnextstack)
    · exact inv.soundStack x (hrestmem x hx1)
  · -- soundVis
    intro x hx
    rcases List.mem_cons.1 hx with h1 | h1
    · subst h1
      exact inv.soundStack x hnextstack
    · exact inv.soundVis x h1
  · -- complete
    intro m hm
    rcases inv.complete m hm with h1 | ⟨s, hsmem, hreach⟩
    · exact Or.inl (List.mem_cons_of_mem next h1)
    · rcases reaches_split delegation_map voters visited next hreach with
        hup | hmn | ⟨c, hc1, hc2, hc3, hc4⟩
      · rcases List.mem_cons.1 hsmem with hs | hs
        · subst hs
          by_cases hmn2 : m = s
          · exact Or.inl (by rw [hmn2]; exact List.mem_cons_self s visited)
          · obtain ⟨c, hcl, hca, hcv, hcr⟩ :=
              reaches_peel delegation_map voters (s :: visited) hup hmn2
            have hcp : c ∈ pushed :=
              (hpmem c).2 ⟨alookup_mem _ _ _ hcl, hca, hcv⟩
            exact Or.inr ⟨c,
              List.mem_append.2 (Or.inl (List.mem_reverse.2 hcp)), hcr⟩
        · exact Or.inr ⟨s, List.mem_append.2 (Or.inr hs), hup⟩
      · exact Or.inl (by rw [hmn]; exact List.mem_cons_self next visited)
      · have hcp : c ∈ pushed := (hpmem c).2 ⟨alookup_mem _ _ _ hc3, hc2, hc1⟩
        exact Or.inr ⟨c, List.mem_append.2 (Or.inl (List.mem_reverse.2 hcp)), hc4⟩
  · -- univStack
    intro x hx
    rcases List.mem_append.1 hx with hx1 | hx1
    · right
      exact List.mem_map.2 ⟨(x, next), ((hpmem x).1 (List.mem_reverse.1 hx1)).1, rfl⟩
    · exact inv.univStack x (hrestmem x hx1)
  · -- univVis
    intro x hx
    rcases List.mem_cons.1 hx with h1 | h1
    · subst h1
      exact inv.univStack x hnextstack
    · exact inv.univVis x h1

theorem resolve_loop_nil_spec (delegation_map : List (Nat × Nat)) (voters : List Nat)
    (v : Nat) (fuel : Nat) (visited : List Nat) (accumulator : Nat)
    (inv : ResolveInv delegation_map voters v [] visited) :
    ∃ Vf : List Nat,
      resolve_power_loop delegation_map voters fuel [] visited accumulator =
        some (accumulator + Vf.length) ∧
      Vf.Nodup ∧ (∀ m ∈ Vf, m ∉ visited) ∧
      (∀ m, (m ∈ Vf ∨ m ∈ visited) ↔ Reaches delegation_map voters [] v m) := by
  refine ⟨[], by simp [resolve_power_loop], List.nodup_nil, by simp, ?_⟩
  intro m
  simp only [List.not_mem_nil, false_or]
  constructor
  · exact inv.soundVis m
  · intro h
    rcases inv.complete m h with h1 | ⟨s, hs, _⟩
    · exact h1
    · exact absurd hs (List.not_mem_nil s)

theorem resolve_power_loop_spec (delegation_map : List (Nat × Nat)) (voters : List Nat)
    (v : Nat) (hnd : (delegation_map.map Prod.fst).Nodup) :
    ∀ (fuel : Nat) (stack visited : List Nat) (accumulator : Nat),
      ResolveInv delegation_map voters v stack visited →
      (v :: delegation_map.map Prod.fst).toFinset.card ≤ visited.length + fuel →
      ∃ Vf : List Nat,
        resolve_power_loop delegation_map voters fuel stack visited accumulator =
          some (accumulator + Vf.length) ∧
        Vf.Nodup ∧ (∀ m ∈ Vf, m ∉ visited) ∧
        (∀ m, (m ∈ Vf ∨ m ∈ visited) ↔ Reaches delegation_map voters [] v m) := by
  intro fuel
  induction fuel with
  | zero =>
    intro stack visited accumulator inv hcard
    cases stack with
    | nil => exact resolve_loop_nil_spec delegation_map voters v 0 visited accumulator inv
    | cons next rest =>
      exfalso
      have hsubset : visited.toFinset ⊆ (v :: delegation_map.map Prod.fst).toFinset := by
        intro x hx
        rw [List.mem_toFinset] at hx
        rw [List.mem_toFinset]
        rcases inv.univVis x hx with h1 | h1
        · rw [h1]
          exact List.mem_cons_self _ _
        · exact List.mem_cons_of_mem _ h1
      have hlen : visited.toFinset.card = visited.length :=
        List.toFinset_card_of_nodup inv.ndVis
      have hle : (v :: delegation_map.map Prod.fst).toFinset.card ≤
          visited.toFinset.card := by
        omega
      have heq : visited.toFinset = (v :: delegation_map.map Prod.fst).toFinset :=
        Finset.eq_of_subset_of_card_le hsubset hle
      have hnextuniv : next ∈ (v :: delegation_map.map Prod.fst).toFinset := by
        rw [List.mem_toFinset]
        rcases inv.univStack next (List.mem_cons_self next rest) with h1 | h1
        · rw [h1]
          exact List.mem_cons_self _ _
        · exact List.mem_cons_of_mem _ h1
      rw [← heq, List.mem_toFinset] at hnextuniv
      exact inv.disj next (List.mem_cons_self next rest) hnextuniv
  | succ fuel ih =>
    intro stack visited accumulator inv hcard
    cases stack with
    | nil =>
      exact resolve_loop_nil_spec delegation_map voters v (fuel + 1) visited accumulator inv
    | cons next rest =>
      have hnextvis : next ∉ visited := inv.disj next (List.mem_cons_self next rest)
      have inv' := resolve_inv_step delegation_map voters v hnd next rest visited inv
      have hcard' : (v :: delegation_map.map Prod.fst).toFinset.card ≤
          (next :: visited).length + fuel := by
        simp only [List.length_cons]
        omega
      obtain ⟨Vf, hloop, hVnd, hVdisj, hVcov⟩ :=
        ih (((adj_list delegation_map next).filter
            (fun c => decide (c ∉ next :: visited ∧ c ∉ voters))).reverse ++ rest)
          (next :: visited) (accumulator + 1) inv' hcard'
      have hnextVf : next ∉ Vf := by
        intro hmem
        exact hVdisj next hmem (List.mem_cons_self next visited)
      refine ⟨next :: Vf, ?_, List.Nodup.cons hnextVf hVnd, ?_, ?_⟩
      · rw [resolve_power_loop]
        simp only [if_neg hnextvis]
        rw [hloop]
        have harith : accumulator + 1 + Vf.length = accumulator + (next :: Vf).length := by
          simp only [List.length_cons]
          omega
        rw [harith]
      · intro m hm
        rcases List.mem_cons.1 hm with h1 | h1
        · rw [h1]
          exact hnextvis
        · intro hv2
          exact hVdisj m h1 (List.mem_cons_of_mem next hv2)
      · intro m
        rw [← hVcov m]
        simp only [List.mem_cons]
        tauto

theorem resolve_power_spec (delegation_map : List (Nat × Nat)) (voters : List Nat)
    (v : Nat) (hnd : (delegation_map.map Prod.fst).Nodup) :
    ∃ Vf : List Nat, resolve_power delegation_map v voters = some Vf.length ∧
      Vf.Nodup ∧ ∀ m, m ∈ Vf ↔ Reaches delegation_map voters [] v m := by
  have inv0 : ResolveInv delegation_map voters v [v] [] := by
    constructor
    · exact List.nodup_singleton v
    · exact List.nodup_nil
    · intro x _
      exact List.not_mem_nil x
    · exact Or.inr ⟨rfl, rfl⟩
    · intro x hx
      left
      simpa using hx
    · intro x hx
      have hxv : x = v := by simpa using hx
      rw [hxv]
      exact Reaches.refl
    · intro x hx
      exact absurd hx (List.not_mem_nil x)
    · intro m h
      exact Or.inr ⟨v, List.mem_cons_self v [], h⟩
    · intro x hx
      left
      simpa using hx
    · intro x hx
      exact absurd hx (List.not_mem_nil x)
  have hb : (v :: delegation_map.map Prod.fst).toFinset.card ≤
      List.length ([] : List Nat) + (delegation_map.length + 1) := by
    have h1 := List.toFinset_card_le (v :: delegation_map.map Prod.fst)
    simp only [List.length_cons, List.length_map] at h1
    simp only [List.length_nil]
    omega
  obtain ⟨Vf, h1, h2, _, h4⟩ := resolve_power_loop_spec delegation_map voters v hnd
    (delegation_map.length + 1) [v] [] 0 inv0 hb
  refine ⟨Vf, ?_, h2, ?_⟩
  · rw [resolve_power, h1]
    simp
  · intro m
    have := h4 m
    simpa using this

/-- C9: `generate_weights` returns a result for every finite delegation graph
(the delegation map is a finite `HashMap`, so its keys are duplicate-free)
and every voter set, including graphs whose delegation relation contains
cycles: the visited set of `resolve_power` grows by one genuinely new node
per iteration within the finite universe `{root} ∪ delegators`, so fuel
`|delegation_map| + 1` always suffices and the DFS never revisits or loops. -/
theorem generate_weights_terminates (delegation_map : List (Nat × Nat))
    (voters : List Nat) (hnd : (delegation_map.map Prod.fst).Nodup) :
    ∃ w, generate_weights delegation_map voters = some w := by
  rw [generate_weights]
  suffices h : ∀ vs : List Nat,
      ∃ w, generate_weights_go delegation_map voters vs = some w by
    exact h voters
  intro vs
  induction vs with
  | nil => exact ⟨[], rfl⟩
  | cons x rest ih =>
    obtain ⟨Vf, hr, _, _⟩ := resolve_power_spec delegation_map voters x hnd
    obtain ⟨w, hw⟩ := ih
    refine ⟨(x, Vf.length) :: w, ?_⟩
    rw [generate_weights_go, hr, hw]

/-- C9 witness: a three-node delegation cycle `0 → 1 → 2 → 0` with voter
set `{1}` — `generate_weights` returns. -/
theorem generate_weights_terminates_witness :
    ∃ w, generate_weights [(0, 1), (1, 2), (2, 0)] [1] = some w :=
  generate_weights_terminates [(0, 1), (1, 2), (2, 0)] [1] (by decide)

theorem reaches_unique_voter (delegation_map : List (Nat × Nat)) (voters : List Nat)
    (x y : Nat) (hx : x ∈ voters) (hy : y ∈ voters) :
    ∀ m, Reaches delegation_map voters [] x m →
      Reaches delegation_map voters [] y m → x = y := by
  intro m h1
  induction h1 with
  | refl =>
    intro h2
    cases h2 with
    | refl => rfl
    | step m r hm hv hr hrec => exact absurd hx hv
  | step m r hm hv hr _hrec ih =>
    intro h2
    cases h2 with
    | refl => exact absurd hy hv
    | step m' r' hm' hv' hr' hrec' =>
      have hrr : r = r' := Option.some_inj.1 (hr.symm.trans hr')
      rw [← hrr] at hrec'
      exact ih hrec'

theorem reaches_mem_census (delegation_map : List (Nat × Nat))
    (voters census : List Nat)
    (hdm : ∀ p ∈ delegation_map, p.1 ∈ census ∧ p.2 ∈ census)
    (v : Nat) (hv : v ∈ census) :
    ∀ m, Reaches delegation_map voters [] v m → m ∈ census := by
  intro m h
  induction h with
  | refl => exact hv
  | step m r _hm _hv hr _hrec _ih =>
    exact (hdm (m, r) (alookup_mem _ _ _ hr)).1

theorem generate_weights_go_sum (delegation_map : List (Nat × Nat)) (voters : List Nat)
    (hnd : (delegation_map.map Prod.fst).Nodup) :
    ∀ vs : List Nat, vs.Nodup → (∀ x ∈ vs, x ∈ voters) →
      ∃ (w : List (Nat × Nat)) (T : Finset Nat),
        generate_weights_go delegation_map voters vs = some w ∧
        sum_weights w = T.card ∧
        (∀ m, m ∈ T ↔ ∃ x ∈ vs, Reaches delegation_map voters [] x m) := by
  intro vs
  induction vs with
  | nil =>
    intro _ _
    refine ⟨[], ∅, rfl, by simp [sum_weights], by simp⟩
  | cons x rest ih =>
    intro hnodup hsub
    obtain ⟨Vf, hr, hVnd, hVcov⟩ := resolve_power_spec delegation_map voters x hnd
    obtain ⟨w', T', hw', hsum', hcov'⟩ := ih (List.nodup_cons.1 hnodup).2
      (fun y hy => hsub y (List.mem_cons_of_mem x hy))
    have hxv : x ∈ voters := hsub x (List.mem_cons_self x rest)
    have hxrest : x ∉ rest := (List.nodup_cons.1 hnodup).1
    have hdisj : Disjoint Vf.toFinset T' := by
      rw [Finset.disjoint_left]
      intro m hm1 hm2
      rw [List.mem_toFinset, hVcov] at hm1
      obtain ⟨y, hy, hym⟩ := (hcov' m).1 hm2
      have hyv : y ∈ voters := hsub y (List.mem_cons_of_mem x hy)
      have hxy : x = y := reaches_unique_voter delegation_map voters x y hxv hyv m hm1 hym
      exact hxrest (hxy ▸ hy)
    refine ⟨(x, Vf.length) :: w', Vf.toFinset ∪ T', ?_, ?_, ?_⟩
    · rw [generate_weights_go, hr, hw']
    · rw [Finset.card_union_of_disjoint hdisj, List.toFinset_card_of_nodup hVnd]
      simp only [sum_weights, List.map_cons, List.sum_cons] at hsum' ⊢
      omega
    · intro m
      rw [Finset.mem_union, List.mem_toFinset, hVcov]
      constructor
      · rintro (h1 | h1)
        · exact ⟨x, List.mem_cons_self x rest, h1⟩
        · obtain ⟨y, hy, hym⟩ := (hcov' m).1 h1
          exact ⟨y, List.mem_cons_of_mem x hy, hym⟩
      · rintro ⟨y, hy, hym⟩
        rcases List.mem_cons.1 hy with h1 | h1
        · subst h1
          exact Or.inl hym
        · exact Or.inr ((hcov' m).2 ⟨y, h1, hym⟩)

/-- C8: on any delegation graph whose `delegator → representative` pairs are
drawn from the census (keys duplicate-free, as a `HashMap`'s are) and any
duplicate-free voter set `V ⊆ census`, the sum of the values of
`generate_weights V` is at most the census size, with equality precisely when
every census member is reached by the `resolve_power` traversal of some
`v ∈ V` — i.e. the member's chain of representatives reaches a voter without
passing through another voter first (`Reaches` with an empty avoid list).
The proof shows each voter's weight counts exactly its reachable set, that
those sets are pairwise disjoint (representative chains are deterministic and
the traversal stops at voters), and that each is contained in the census. -/
theorem generate_weights_total (delegation_map : List (Nat × Nat))
    (census voters : List Nat)
    (hnd : (delegation_map.map Prod.fst).Nodup)
    (hcnd : census.Nodup) (hvnd : voters.Nodup)
    (hdm : ∀ p ∈ delegation_map, p.1 ∈ census ∧ p.2 ∈ census)
    (hvc : ∀ x ∈ voters, x ∈ census) :
    ∃ w, generate_weights delegation_map voters = some w ∧
      sum_weights w ≤ census.length ∧
      (sum_weights w = census.length ↔
        ∀ m ∈ census, ∃ x ∈ voters, Reaches delegation_map voters [] x m) := by
  obtain ⟨w, T, hw, hsum, hcov⟩ :=
    generate_weights_go_sum delegation_map voters hnd voters hvnd (fun x hx => hx)
  have hTsub : T ⊆ census.toFinset := by
    intro m hm
    obtain ⟨x, hx, hxm⟩ := (hcov m).1 hm
    rw [List.mem_toFinset]
    exact reaches_mem_census delegation_map voters census hdm x (hvc x hx) m hxm
  have hclen : census.toFinset.card = census.length := List.toFinset_card_of_nodup hcnd
  have hTle := Finset.card_le_card hTsub
  refine ⟨w, hw, by omega, ?_, ?_⟩
  · intro heq
    have hcardeq : census.toFinset.card ≤ T.card := by omega
    have hTeq : T = census.toFinset := Finset.eq_of_subset_of_card_le hTsub hcardeq
    intro m hm
    have hmT : m ∈ T := by
      rw [hTeq, List.mem_toFinset]
      exact hm
    exact (hcov m).1 hmT
  · intro hall
    have hsub2 : census.toFinset ⊆ T := by
      intro m hm
      rw [List.mem_toFinset] at hm
      exact (hcov m).2 (hall m hm)
    have hTeq : T = census.toFinset := Finset.Subset.antisymm hTsub hsub2
    rw [hsum, hTeq, hclen]

/-- C8 witness: census `{0,1,2}`, delegation `0 → 1`, voters `{1,2}`:
the weights sum to `2 + 1 = 3 = |census|` and indeed every census member's
power reaches a voter. -/
theorem generate_weights_total_witness :
    ∃ w, generate_weights [(0, 1)] [1, 2] = some w ∧
      sum_weights w ≤ [0, 1, 2].length ∧
      (sum_weights w = [0, 1, 2].length ↔
        ∀ m ∈ [0, 1, 2], ∃ x ∈ [1, 2], Reaches [(0, 1)] [1, 2] [] x m) :=
  generate_weights_total [(0, 1)] [0, 1, 2] [1, 2] (by decide) (by decide)
    (by decide) (by decide) (by decide)

end Votechain
